import Mathlib

/-!
Verification of the chained-bucket hash table core of the Data-Structures
repository (files `HashTable.c++`, `LinkedList.c++`, `DynamicArray.c++`,
`Array.c++`, `Algorithms/MurmurHashingAlgorithm.c++`).

The C++ sources are shallowly embedded:
* 64-bit `long` values are represented by their two's-complement bit
  patterns, i.e. natural numbers below 2^64; 16-bit `short` values by
  naturals below 2^16.  Signed multiplication wraps modulo the width and
  `& LONG_MAX` keeps the low 63 bits, exactly as on the target platform.
* the parallel bucket chains of the hash table are represented by lists of
  values.  The table only ever uses `LinkedList::Add` (append a freshly
  allocated node at the tail), `FindFirstNode`/`IndexOf` (position of the
  first node holding a given value; the table's chains are built with
  `ImprovableSearch = false`, so no node is ever swapped), and
  `NodeAt(i)->Data = v` (positional overwrite), so a chain behaves exactly
  as the list of its node values in insertion order.
* `LinkedList::Reverse`, whose behaviour depends on the `next`/`previous`
  pointers themselves, is embedded separately at the pointer level: a heap
  of nodes addressed by allocation index.
* exceptions become `Except` values, one constructor per distinct
  `throw` site kind.
-/

namespace DS

/-! ## Murmur-style hashing algorithm (`Algorithms/MurmurHashingAlgorithm.c++`)

`ToBinary` builds the binary-digit string of a number (most significant bit
first, empty for 0); a character `'0'`/`'1'` is represented by its digit
value.  The fuel argument makes the recursion structural; fuel `value`
always suffices since the value at least halves each step. -/

def toBinaryAux : Nat → Nat → List Nat
  | 0, _ => []
  | _, 0 => []
  | fuel + 1, v + 1 => toBinaryAux fuel ((v + 1) / 2) ++ [(v + 1) % 2]

/-- Embeds `ToBinary` (lines 11–21): repeatedly prepend `value % 2` while
dividing by 2.  The resulting digit list is most-significant first. -/
def ToBinary (value : Nat) : List Nat := toBinaryAux value value

/-- Embeds `ToDecimal` (lines 26–32): digit `i` of the string contributes
`digit * 2^(size - i - 1)`; `std::pow(2, k)` is exact for the exponents
that occur (`k ≤ 3`). -/
def ToDecimal : List Nat → Nat
  | [] => 0
  | d :: rest => d * 2 ^ rest.length + ToDecimal rest

/-- Embeds `ToByteArray` (lines 37–51): slice the binary string into 4-bit
groups from the most significant end; `byteCount = ceil(len / 4.0f)` is
exact in `float` for all lengths that occur and equals `(len + 3) / 4`. -/
def ToByteArray (value : Nat) : List Nat :=
  let binaryValue := ToBinary value
  let byteCount := (binaryValue.length + 3) / 4
  (List.range byteCount).map
    (fun i => ToDecimal ((binaryValue.drop (i * 4)).take 4))

/-- Length of `std::to_string(n)` for a non-negative `long`: the number of
decimal digits (1 for 0).  Fuel-based to keep the recursion structural. -/
def decimalLengthAux : Nat → Nat → Nat
  | 0, _ => 1
  | fuel + 1, n => if n < 10 then 1 else 1 + decimalLengthAux fuel (n / 10)

def decimalLength (n : Nat) : Nat := decimalLengthAux n n

/-- Signed value of a 16-bit pattern (C++ `short`). -/
def sval16 (p : Nat) : Int := if p < 2 ^ 15 then (p : Int) else (p : Int) - 2 ^ 16

/-- Signed value of a 64-bit pattern (C++ `long`). -/
def sval64 (p : Nat) : Int := if p < 2 ^ 63 then (p : Int) else (p : Int) - 2 ^ 64

/-- Computes `(x * PRIME) & LONG_MAX` on a signed 64-bit value: the product wraps to
64 bits and the mask keeps the low 63 bits, so the result is a non-negative
`long` whose value equals its pattern. -/
def mulPrimeMask (x : Int) : Nat := (((x * 2003) % (2 : Int) ^ 64).toNat) % 2 ^ 63

/-- The 64-bit pattern of a `short` converted to `long` (sign extension). -/
def shortToLongPattern (b : Nat) : Nat :=
  if b < 2 ^ 15 then b else 2 ^ 64 - 2 ^ 16 + b

/-- One iteration of the byte loop of `MurmurHashingAlgorithm`
(lines 64–73), acting on the 64-bit accumulator pattern `h` and the 16-bit
byte pattern `b`:
`byte = (byte * PRIME) & LONG_MAX` truncates back to `short`;
`byte ^= (byte >> 24)` promotes the `short` to `int`, where the arithmetic
shift by 24 yields 0 for a non-negative value and -1 for a negative one, so
the xor either is the identity or complements the low 16 bits;
`byte = (byte * PRIME) & LONG_MAX` truncates again;
`hashValue = (hashValue * PRIME) & LONG_MAX; hashValue ^= byte` folds the
sign-extended byte into the accumulator. -/
def mixStep (h : Nat) (b : Nat) : Nat :=
  let b1 := mulPrimeMask (sval16 b) % 2 ^ 16
  let b2 := if b1 < 2 ^ 15 then b1 else b1 ^^^ (2 ^ 16 - 1)
  let b3 := mulPrimeMask (sval16 b2) % 2 ^ 16
  let h1 := mulPrimeMask (sval64 h)
  h1 ^^^ shortToLongPattern b3

/-- Arithmetic right shift of a 64-bit pattern by `k` bits. -/
def asr64 (p : Nat) (k : Nat) : Nat :=
  if p < 2 ^ 63 then p / 2 ^ k else p / 2 ^ k + (2 ^ 64 - 2 ^ (64 - k))

/-- The final avalanche of `MurmurHashingAlgorithm` (lines 75–77). -/
def finalizeHash (h : Nat) : Nat :=
  let hA := h ^^^ asr64 h 24
  let hB := mulPrimeMask (sval64 hA)
  hB ^^^ asr64 hB 24

/-- Embeds `MurmurHashingAlgorithm` (lines 57–80) for a non-negative
`rawHashing` (the table always feeds it a sum of addresses, which is
non-negative): the accumulator starts at
`seed ^ std::to_string(rawHashing).length()` and the bytes of
`ToByteArray` are folded in array order. -/
def MurmurHashingAlgorithm (rawHashing : Nat) (seed : Nat) : Nat :=
  finalizeHash ((ToByteArray rawHashing).foldl mixStep
    (seed ^^^ decimalLength rawHashing))

/-! Reference computation, from the specification's words (§4.1): slice the
binary representation into 4-bit groups, most significant first; a group's
value folds its bits left to right. -/

/-- Four-bit groups of a digit string, sliced from the most significant
end; the final group may be shorter. -/
def chunksOf4Aux : Nat → List Nat → List (List Nat)
  | 0, _ => []
  | _, [] => []
  | fuel + 1, d :: rest => (d :: rest).take 4 :: chunksOf4Aux fuel ((d :: rest).drop 4)

def chunksOf4 (l : List Nat) : List (List Nat) := chunksOf4Aux l.length l

/-- Value of a bit group, most significant bit first. -/
def groupValue (bits : List Nat) : Nat := bits.foldl (fun a d => 2 * a + d) 0

/-- The 4-bit digits of `rawValue` per the specification: binary
representation, sliced into 4-bit groups, most significant first. -/
def specDigits (rawValue : Nat) : List Nat :=
  (chunksOf4 (ToBinary rawValue)).map groupValue

/-- The reference hash exactly as the claim states it: the accumulator is
initialised to `seed XOR (count of 4-bit digits)`, then each digit is
folded in from most significant to least significant, then the avalanche. -/
def murmurReferenceClaim (rawValue : Nat) (seed : Nat) : Nat :=
  finalizeHash ((specDigits rawValue).foldl mixStep
    (seed ^^^ (specDigits rawValue).length))

/-- The reference hash with the initialisation the code actually performs:
`seed XOR (number of decimal digits of rawValue)`. -/
def murmurReferenceAmended (rawValue : Nat) (seed : Nat) : Nat :=
  finalizeHash ((specDigits rawValue).foldl mixStep
    (seed ^^^ decimalLength rawValue))

/-! ## `Array<T>::Resize` (`Array.c++`)

A buffer allocated by `Array(length)` is created with `new T[length]`,
whose slots are default-initialised (indeterminate for scalar types).  A
slot is modelled as `none` while it still holds that default-initialised
value and as `some x` once `x` has been written into it. -/

/-- Embeds `Array<T>::Resize(length)` (lines 132–139): a fresh
default-initialised buffer of the new length, with the first
`min(this->length, length)` slots copied from the source. -/
def Resize {α : Type} (src : List (Option α)) (length : Nat) : List (Option α) :=
  (List.range (min src.length length)).foldl
    (fun acc i => acc.set i (src.getD i none))
    (List.replicate length none)

/-- Embeds `Array<T>::Resize(length, defaultValue)` (lines 146–155).  The
parameter `length` shadows the member `this->length`, so the guard
`if (length <= length) goto FINISH` always jumps over the fill loop, and
the loop `for (i = length; i < length; i++)` would run zero iterations
anyway: `defaultValue` is never written into the result. -/
def ResizeWithDefault {α : Type} (src : List (Option α)) (length : Nat)
    (defaultValue : α) : List (Option α) :=
  let resizedArray := Resize src length
  if length ≤ length then resizedArray
  else
    (List.range (length - length)).foldl
      (fun acc i => acc.set (length + i) (some defaultValue)) resizedArray

/-! ## Hash table (`HashTable.c++`)

The table keeps a `List<LinkedList<TKey>>` of key chains and a parallel
`List<LinkedList<TValue>>` of value chains.  Both are created with the same
capacity, and `Set`/`Get` index the backing `Array` of the `List` directly
(`keys.array[index]`), so each is modelled as a list of chains whose length
is the `DynamicArray` capacity.  The chains are `LinkedList`s constructed
with `ImprovableSearch = false` and touched only through `Add`,
`FindFirstNode`, `IndexOf`, and `NodeAt(i)->Data = v`, so each chain is
modelled as the list of its node values in insertion order.

The raw hash input of a key is `long(&key) + long(&key) + sizeof(key)`
(lines 91 and 118), a function of the key's address; the model abstracts
the whole key-to-`size_t` pipeline (raw fingerprint, then the configured
hashing algorithm, then conversion to `size_t`) as a function
`hashFn : K → Nat`.  Every theorem below holds for an arbitrary `hashFn`,
hence in particular for the code's composite. -/

/-- One constructor per kind of `throw` site: the key-not-found
`std::out_of_range` of `Get` (line 132), the boundary `std::out_of_range`
of `ValidateBoundaries` in `Array`/`LinkedList`/`DynamicArray`, and the
`std::out_of_range` of `ValidateThreshold` (line 158). -/
inductive HashErr where
  | keyNotFound
  | indexOutOfRange
  | invalidThreshold
deriving DecidableEq

structure HashTable (K V : Type) where
  /-- `keys.capacity = values.capacity`. -/
  capacity : Nat
  /-- `keys.capacityModifier = values.capacityModifier`. -/
  capacityModifier : Nat
  /-- The `float threshold` member; the values exercised are all exactly
  representable, so it is modelled as a rational. -/
  threshold : ℚ
  /-- `keys.count = values.count`; the table never appends to the `List`s
  themselves, so this stays 0 except inside `ExpandArray`. -/
  bucketsCount : Nat
  keyBuckets : List (List K)
  valueBuckets : List (List V)
  hashedPairCount : Nat

/-- Embeds `LinkedList::FindFirstNode(value)` (line 255) composed with
`IndexOf` of the returned node (lines 242–249): the chain is scanned head
to tail and the position of the first node whose `Data` equals `value` is
returned (`none` for the null pointer).  The table's chains never contain
two nodes at the same address, and `ImprovableSearch` is false, so no
swap happens during the search. -/
def FindFirstNode {K : Type} [DecidableEq K] (value : K) : List K → Option Nat
  | [] => none
  | x :: xs => if x = value then some 0 else (FindFirstNode value xs).map (· + 1)

/-- The bucket index computed by `Set` and `Get` (lines 93 and 120):
the hash reduced modulo `values.capacity` — the actual allocated capacity,
not the requested bucket count. -/
def bucketIndex {K V : Type} (hashFn : K → Nat) (t : HashTable K V) (key : K) : Nat :=
  hashFn key % t.capacity

/-- Embeds `HashTable::Set` (lines 89–110): find the key in its bucket's
key chain; if absent, append key and value to the two parallel chains and
bump `hashedPairCount`; if present, overwrite the value chain at the key's
position.  (`NodeAt` would throw if that position were out of range of the
value chain; under the lockstep invariant it never is, and `List.set`
is likewise the identity out of range.) -/
def Set {K V : Type} [DecidableEq K] (hashFn : K → Nat) (t : HashTable K V)
    (key : K) (value : V) : HashTable K V :=
  let index := bucketIndex hashFn t key
  let keyPocket := t.keyBuckets.getD index []
  let valuePocket := t.valueBuckets.getD index []
  match FindFirstNode key keyPocket with
  | none =>
      { t with
        keyBuckets := t.keyBuckets.set index (keyPocket ++ [key])
        valueBuckets := t.valueBuckets.set index (valuePocket ++ [value])
        hashedPairCount := t.hashedPairCount + 1 }
  | some keyNodeIndex =>
      { t with valueBuckets := t.valueBuckets.set index (valuePocket.set keyNodeIndex value) }

/-- Embeds `HashTable::Get` (lines 116–133): the `Array` boundary check on
the bucket index and the `NodeAt` boundary check surface as
`indexOutOfRange`; an absent key throws the key-not-found
`std::out_of_range` of line 132. -/
def Get {K V : Type} [DecidableEq K] (hashFn : K → Nat) (t : HashTable K V)
    (key : K) : Except HashErr V :=
  let index := bucketIndex hashFn t key
  if index < t.keyBuckets.length ∧ index < t.valueBuckets.length then
    let keyPocket := t.keyBuckets.getD index []
    let valuePocket := t.valueBuckets.getD index []
    match FindFirstNode key keyPocket with
    | some keyNodeIndex =>
        if h : keyNodeIndex < valuePocket.length then
          Except.ok (valuePocket.get ⟨keyNodeIndex, h⟩)
        else Except.error HashErr.indexOutOfRange
    | none => Except.error HashErr.keyNotFound
  else Except.error HashErr.indexOutOfRange

/-- Embeds `HashTable::Has` (lines 138–142): `Get` inside a try block
whose catch-all turns any exception into `false`. -/
def Has {K V : Type} [DecidableEq K] (hashFn : K → Nat) (t : HashTable K V)
    (key : K) : Bool :=
  match Get hashFn t key with
  | Except.ok _ => true
  | Except.error _ => false

/-- A table state with the given capacity data and all chains empty. -/
def emptyTable (K V : Type) (capacity capacityModifier : Nat) (threshold : ℚ) :
    HashTable K V :=
  { capacity := capacity
    capacityModifier := capacityModifier
    threshold := threshold
    bucketsCount := 0
    keyBuckets := List.replicate capacity []
    valueBuckets := List.replicate capacity []
    hashedPairCount := 0 }

/-- Embeds the zero-argument constructor `HashTable()` (lines 20–26):
`threshold = INITIAL_THRESHOLD = 0.75f`, and both bucket arrays are
default-constructed `List`s, whose `DynamicArray()` constructor sets
`capacity = capacityModifier = DynamicArray::INITIAL_CAPACITY = 200` and
default-constructs that many empty chains. -/
def mkDefault (K V : Type) : HashTable K V := emptyTable K V 200 200 (3 / 4)

/-- Embeds the capacity computation of
`DynamicArray(capacity, capacityModifier)` (line 40). -/
def actualCapacity (capacity capacityModifier : Nat) : Nat :=
  (capacity / capacityModifier + 1) * capacityModifier

/-- Embeds `HashTable(capacity, threshold, capacityModifier, ...)`
(lines 38–51): `ValidateThreshold` rejects a threshold outside `(0, 1]`,
and both `List`s allocate `actualCapacity capacity capacityModifier`
chains.  At the call site the defaulted parameters are `threshold = 0.75`
and `capacityModifier = HashTable::INITIAL_CAPACITY = 500`. -/
def mkWithCapacity (K V : Type) (capacity : Nat) (threshold : ℚ)
    (capacityModifier : Nat) : Except HashErr (HashTable K V) :=
  if 0 < threshold ∧ threshold ≤ 1 then
    Except.ok (emptyTable K V (actualCapacity capacity capacityModifier)
      capacityModifier threshold)
  else Except.error HashErr.invalidThreshold

/-- Embeds `Array<LinkedList<T>>::Resize(newLength)` as used from
`ExpandArray`: the overlapping prefix of chains is copied and the new
slots hold default-constructed (empty) chains. -/
def resizeChains {T : Type} (chains : List (List T)) (newLength : Nat) :
    List (List T) :=
  (List.range newLength).map (fun i => chains.getD i [])

/-- Embeds `HashTable::AdapteCapacity` (lines 163–172) together with the
`DynamicArray::ExpandArray` calls it makes on both bucket `List`s
(lines 295–303), both with increment `keys.capacityModifier`.  The
occupancy test divides in `float`; the rational division is exact for the
values exercised here.  Note: no code in the repository calls this private
method. -/
def AdapteCapacity {K V : Type} (t : HashTable K V) : HashTable K V :=
  if (t.hashedPairCount : ℚ) / (t.capacity : ℚ) < t.threshold then t
  else
    let newCount := t.bucketsCount + t.capacityModifier
    if newCount > t.capacity then
      let newCapacity := (newCount / t.capacityModifier + 1) * t.capacityModifier
      { t with
        bucketsCount := newCount
        capacity := newCapacity
        keyBuckets := resizeChains t.keyBuckets newCapacity
        valueBuckets := resizeChains t.valueBuckets newCapacity }
    else { t with bucketsCount := newCount }

/-- Folds `Set` over a sequence of key/value pairs. -/
def applyOps {K V : Type} [DecidableEq K] (hashFn : K → Nat)
    (t : HashTable K V) (ops : List (K × V)) : HashTable K V :=
  ops.foldl (fun acc p => Set hashFn acc p.1 p.2) t

/-- The value most recently set for `key` by the operation sequence. -/
def lastVal {K V : Type} [DecidableEq K] (ops : List (K × V)) (key : K) :
    Option V :=
  ops.foldl (fun acc p => if p.1 = key then some p.2 else acc) none

/-- Number of chain entries across the whole table whose key is `key`. -/
def countEntries {K V : Type} [DecidableEq K] (t : HashTable K V) (key : K) : Nat :=
  (t.keyBuckets.map (fun chain => chain.countP (fun x => decide (x = key)))).sum

/-- Structural well-formedness of a table state: positive capacity, both
bucket arrays of exactly `capacity` chains, lockstep chain lengths, no
duplicate key within a chain, and every key sitting in the bucket its hash
selects.  It holds for every freshly constructed table and is preserved by
`Set`. -/
structure WF {K V : Type} [DecidableEq K] (hashFn : K → Nat) (t : HashTable K V) :
    Prop where
  capPos : 0 < t.capacity
  keysLen : t.keyBuckets.length = t.capacity
  valuesLen : t.valueBuckets.length = t.capacity
  lockstep : ∀ i, (t.keyBuckets.getD i []).length = (t.valueBuckets.getD i []).length
  nodupKeys : ∀ i, (t.keyBuckets.getD i []).Nodup
  placed : ∀ i key, key ∈ t.keyBuckets.getD i [] → bucketIndex hashFn t key = i

/-- The table state refines the map described by the operation history
`ops`: the value stored beside each key is the value most recently set for
it, and a key has a chain entry exactly when it has been set. -/
structure Tracks {K V : Type} [DecidableEq K] (hashFn : K → Nat)
    (t : HashTable K V) (ops : List (K × V)) : Prop where
  assoc : ∀ (i j : Nat) (key : K) (value : V),
    (t.keyBuckets.getD i [])[j]? = some key →
    (t.valueBuckets.getD i [])[j]? = some value →
    lastVal ops key = some value
  memIff : ∀ key : K,
    key ∈ t.keyBuckets.getD (bucketIndex hashFn t key) [] ↔ (lastVal ops key).isSome

/-! ## Pointer-level linked list (`LinkedList.c++`, `Node.c++`)

`LinkedList::Reverse` manipulates the `next`/`previous` pointers
themselves, so it is embedded at the pointer level: nodes live in a heap
addressed by allocation index, and a pointer is `none` (null) or `some i`. -/

structure Node (α : Type) where
  Data : α
  next : Option Nat
  previous : Option Nat
deriving DecidableEq

structure LinkedListHeap (α : Type) where
  nodes : List (Node α)
  count : Nat
  head : Option Nat
  tail : Option Nat
deriving DecidableEq

def emptyLinkedList (α : Type) : LinkedListHeap α :=
  { nodes := [], count := 0, head := none, tail := none }

/-- Writes the `next` field of node `i` (no-op for a dangling id, which
never occurs here). -/
def setNextPtr {α : Type} (nodes : List (Node α)) (i : Nat) (ptr : Option Nat) :
    List (Node α) :=
  match nodes.get? i with
  | some nd => nodes.set i { nd with next := ptr }
  | none => nodes

/-- Writes the `previous` field of node `i`. -/
def setPrevPtr {α : Type} (nodes : List (Node α)) (i : Nat) (ptr : Option Nat) :
    List (Node α) :=
  match nodes.get? i with
  | some nd => nodes.set i { nd with previous := ptr }
  | none => nodes

/-- Embeds `LinkedList::Add(T value)` (lines 121–127): allocate a fresh
node with null `next`/`previous` and pass it to `Add(Node*)` (lines
98–117), whose loop runs exactly once for such a node: the first node
becomes head and tail; afterwards the fresh node's `previous` is set to
the old tail, the old tail's `next` to the fresh node, and the tail
advances. -/
def AddValue {α : Type} (ll : LinkedListHeap α) (value : α) : LinkedListHeap α :=
  let id := ll.nodes.length
  let nodes0 := ll.nodes ++ [{ Data := value, next := none, previous := none }]
  if ll.count = 0 then
    { nodes := nodes0, count := 1, head := some id, tail := some id }
  else
    match ll.tail with
    | some t =>
        { nodes := setNextPtr (setPrevPtr nodes0 id (some t)) t (some id)
          count := ll.count + 1
          head := ll.head
          tail := some id }
    | none => ll

/-- The pointer-reversal loop of `Reverse` (lines 444–450): each step
saves `currentNode->next`, overwrites it with `previousNode`, and
advances.  Only `next` fields are written.  Fuel `nodes.length + 1`
suffices for any acyclic chain. -/
def reverseLoop {α : Type} :
    Nat → Option Nat → Option Nat → List (Node α) → List (Node α)
  | 0, _, _, nodes => nodes
  | _ + 1, _, none, nodes => nodes
  | fuel + 1, previousNode, some c, nodes =>
      match nodes.get? c with
      | none => nodes
      | some nd => reverseLoop fuel (some c) nd.next (nodes.set c { nd with next := previousNode })

/-- Embeds `LinkedList::Reverse` (lines 439–455): if the list is
non-empty, remember `secondNode = head->next`, run the `next`-pointer
reversal loop, swap `head` and `tail`, null the new head's `previous`,
and set the new tail's `previous` to `secondNode`. -/
def Reverse {α : Type} (ll : LinkedListHeap α) : LinkedListHeap α :=
  if ll.count = 0 then ll
  else
    let secondNode : Option Nat :=
      match ll.head with
      | some h =>
          match ll.nodes.get? h with
          | some nd => nd.next
          | none => none
      | none => none
    let nodes1 := reverseLoop (ll.nodes.length + 1) none ll.head ll.nodes
    let newHead := ll.tail
    let newTail := ll.head
    let nodes2 :=
      match newHead with
      | some h => setPrevPtr nodes1 h none
      | none => nodes1
    let nodes3 :=
      match newTail with
      | some t => setPrevPtr nodes2 t secondNode
      | none => nodes2
    { nodes := nodes3, count := ll.count, head := newHead, tail := newTail }

/-- The node values visited by following `next` from a start pointer for
at most `fuel` steps. -/
def nextTraversal {α : Type} :
    Nat → Option Nat → List (Node α) → List α
  | 0, _, _ => []
  | _ + 1, none, _ => []
  | fuel + 1, some c, nodes =>
      match nodes.get? c with
      | none => []
      | some nd => nd.Data :: nextTraversal fuel nd.next nodes

/-- The node values visited by following `previous` from a start pointer
for at most `fuel` steps. -/
def prevTraversal {α : Type} :
    Nat → Option Nat → List (Node α) → List α
  | 0, _, _ => []
  | _ + 1, none, _ => []
  | fuel + 1, some c, nodes =>
      match nodes.get? c with
      | none => []
      | some nd => nd.Data :: prevTraversal fuel nd.previous nodes

lemma groupValue_foldl (s : List Nat) (a : Nat) :
    s.foldl (fun a d => 2 * a + d) a = a * 2 ^ s.length + ToDecimal s := by
  induction s generalizing a with
  | nil => simp [ToDecimal]
  | cons d rest ih =>
    simp only [List.foldl_cons, ToDecimal, List.length_cons, ih (2 * a + d)]
    ring

lemma toDecimal_eq_groupValue (s : List Nat) : ToDecimal s = groupValue s := by
  simp [groupValue, groupValue_foldl]

lemma range_map_chunksAux (fuel : Nat) (l : List Nat) (hl : l.length ≤ fuel) :
    (List.range ((l.length + 3) / 4)).map
        (fun i => ToDecimal ((l.drop (i * 4)).take 4))
      = (chunksOf4Aux fuel l).map ToDecimal := by
  induction fuel generalizing l with
  | zero =>
    have : l = [] := List.eq_nil_of_length_eq_zero (Nat.le_zero.mp hl)
    subst this
    simp [chunksOf4Aux]
  | succ fuel ih =>
    cases l with
    | nil => simp [chunksOf4Aux]
    | cons d rest =>
      have hcount : ((d :: rest).length + 3) / 4 = rest.length / 4 + 1 := by
        simp only [List.length_cons]
        omega
      have hcount2 : (((d :: rest).drop 4).length + 3) / 4 = rest.length / 4 := by
        simp only [List.length_drop, List.length_cons]
        omega
      rw [hcount, List.range_succ_eq_map]
      simp only [List.map_cons, List.map_map, chunksOf4Aux, List.map_cons,
        List.cons.injEq]
      constructor
      case left => simp
      case right =>
        have ihl := ih ((d :: rest).drop 4)
          (by simp only [List.length_drop, List.length_cons]; omega)
        rw [hcount2] at ihl
        rw [← ihl]
        apply List.map_congr_left
        intro i _
        simp only [Function.comp_apply, List.drop_drop]
        congr 3
        omega

lemma toByteArray_eq_specDigits (v : Nat) : ToByteArray v = specDigits v := by
  unfold ToByteArray specDigits chunksOf4
  rw [range_map_chunksAux (ToBinary v).length (ToBinary v) (Nat.le_refl _)]
  apply List.map_congr_left
  intro s _
  exact toDecimal_eq_groupValue s

/-! ### List helper lemmas -/

lemma getD_set_self {α : Type} (l : List α) (i : Nat) (a d : α)
    (h : i < l.length) : (l.set i a).getD i d = a := by
  induction l generalizing i with
  | nil => simp at h
  | cons x xs ih =>
    cases i with
    | zero => rfl
    | succ n => exact ih n (by simpa using h)

lemma getD_set_ne {α : Type} (l : List α) (i j : Nat) (a d : α)
    (h : i ≠ j) : (l.set i a).getD j d = l.getD j d := by
  induction l generalizing i j with
  | nil => rfl
  | cons x xs ih =>
    cases i with
    | zero =>
      cases j with
      | zero => exact absurd rfl h
      | succ m => rfl
    | succ n =>
      cases j with
      | zero => rfl
      | succ m => exact ih n m (fun hc => h (by rw [hc]))

lemma getD_replicate {α : Type} (n i : Nat) (a : α) :
    (List.replicate n a).getD i a = a := by
  induction n generalizing i with
  | zero => rfl
  | succ m ih =>
    cases i with
    | zero => rfl
    | succ k => exact ih k

/-! ### `FindFirstNode` characterisation -/

lemma findFirstNode_eq_none_iff {K : Type} [DecidableEq K] (k : K) (l : List K) :
    FindFirstNode k l = none ↔ k ∉ l := by
  induction l with
  | nil => simp [FindFirstNode]
  | cons x xs ih =>
    by_cases hx : x = k
    · simp [FindFirstNode, hx]
    · have hmap : (FindFirstNode k xs).map (· + 1) = none ↔ FindFirstNode k xs = none := by
        cases FindFirstNode k xs <;> simp
      simp only [FindFirstNode, if_neg hx, hmap, ih, List.mem_cons]
      constructor
      · intro hnot hc
        rcases hc with hc | hc
        · exact hx hc.symm
        · exact hnot hc
      · intro hnot hc
        exact hnot (Or.inr hc)

lemma findFirstNode_spec {K : Type} [DecidableEq K] {k : K} {l : List K} {j : Nat}
    (h : FindFirstNode k l = some j) :
    ∃ hj : j < l.length, l.get ⟨j, hj⟩ = k := by
  induction l generalizing j with
  | nil => simp [FindFirstNode] at h
  | cons x xs ih =>
    by_cases hx : x = k
    · simp only [FindFirstNode, if_pos hx, Option.some.injEq] at h
      subst h
      exact ⟨by simp, hx⟩
    · simp only [FindFirstNode, if_neg hx] at h
      cases hf : FindFirstNode k xs with
      | none => rw [hf] at h; simp at h
      | some j0 =>
        rw [hf] at h
        simp at h
        subst h
        obtain ⟨hlt, hget⟩ := ih hf
        exact ⟨by simpa using hlt, hget⟩

lemma findFirstNode_of_mem {K : Type} [DecidableEq K] {k : K} {l : List K}
    (h : k ∈ l) : ∃ j, FindFirstNode k l = some j := by
  cases hf : FindFirstNode k l with
  | none => exact absurd h ((findFirstNode_eq_none_iff k l).mp hf)
  | some j => exact ⟨j, rfl⟩

/-! ### `lastVal` facts -/

lemma lastVal_append_singleton {K V : Type} [DecidableEq K]
    (ops : List (K × V)) (p : K × V) (k : K) :
    lastVal (ops ++ [p]) k = if p.1 = k then some p.2 else lastVal ops k := by
  simp [lastVal, List.foldl_append]

/-! ### Behaviour of `Set` -/

lemma Set_not_found {K V : Type} [DecidableEq K] (hashFn : K → Nat)
    (t : HashTable K V) (k : K) (v : V)
    (h : FindFirstNode k (t.keyBuckets.getD (bucketIndex hashFn t k) []) = none) :
    Set hashFn t k v =
    { t with
      keyBuckets := t.keyBuckets.set (bucketIndex hashFn t k)
        (t.keyBuckets.getD (bucketIndex hashFn t k) [] ++ [k])
      valueBuckets := t.valueBuckets.set (bucketIndex hashFn t k)
        (t.valueBuckets.getD (bucketIndex hashFn t k) [] ++ [v])
      hashedPairCount := t.hashedPairCount + 1 } := by
  simp only [List.getD_eq_getElem?_getD] at h
  simp [Set, h]

lemma Set_found {K V : Type} [DecidableEq K] (hashFn : K → Nat)
    (t : HashTable K V) (k : K) (v : V) (j : Nat)
    (h : FindFirstNode k (t.keyBuckets.getD (bucketIndex hashFn t k) []) = some j) :
    Set hashFn t k v =
    { t with
      valueBuckets := t.valueBuckets.set (bucketIndex hashFn t k)
        ((t.valueBuckets.getD (bucketIndex hashFn t k) []).set j v) } := by
  simp only [List.getD_eq_getElem?_getD] at h
  simp [Set, h]

lemma capacity_Set {K V : Type} [DecidableEq K] (hashFn : K → Nat)
    (t : HashTable K V) (k : K) (v : V) :
    (Set hashFn t k v).capacity = t.capacity := by
  cases h : FindFirstNode k (t.keyBuckets.getD (bucketIndex hashFn t k) []) with
  | none => rw [Set_not_found hashFn t k v h]
  | some j => rw [Set_found hashFn t k v j h]

lemma bucketIndex_Set {K V : Type} [DecidableEq K] (hashFn : K → Nat)
    (t : HashTable K V) (k : K) (v : V) (k2 : K) :
    bucketIndex hashFn (Set hashFn t k v) k2 = bucketIndex hashFn t k2 := by
  simp [bucketIndex, capacity_Set]

/-! ### The structural invariant holds initially and is preserved by `Set` -/

lemma WF_emptyTable (K V : Type) [DecidableEq K] (hashFn : K → Nat)
    (c m : Nat) (thr : ℚ) (hc : 0 < c) :
    WF hashFn (emptyTable K V c m thr) := by
  refine ⟨hc, by simp [emptyTable], by simp [emptyTable], ?_, ?_, ?_⟩
  · intro i
    simp [emptyTable, getD_replicate]
  · intro i
    simp [emptyTable, getD_replicate]
  · intro i key hk
    simp only [emptyTable] at hk
    rw [getD_replicate] at hk
    simp at hk

lemma Tracks_emptyTable (K V : Type) [DecidableEq K] (hashFn : K → Nat)
    (c m : Nat) (thr : ℚ) :
    Tracks hashFn (emptyTable K V c m thr) [] := by
  refine ⟨?_, ?_⟩
  · intro i j key value hkey hvalue
    simp only [emptyTable] at hkey
    rw [getD_replicate] at hkey
    simp at hkey
  · intro key
    simp only [emptyTable, lastVal, List.foldl_nil]
    rw [getD_replicate]
    simp

lemma WF_Set {K V : Type} [DecidableEq K] (hashFn : K → Nat)
    (t : HashTable K V) (hwf : WF hashFn t) (k : K) (v : V) :
    WF hashFn (Set hashFn t k v) := by
  obtain ⟨capPos, keysLen, valuesLen, lockstep, nodupKeys, placed⟩ := hwf
  have hidx : bucketIndex hashFn t k < t.capacity :=
    Nat.mod_lt _ capPos
  cases h : FindFirstNode k (t.keyBuckets.getD (bucketIndex hashFn t k) []) with
  | some j =>
    rw [Set_found hashFn t k v j h]
    refine ⟨capPos, keysLen, by simp [valuesLen], ?_, nodupKeys, ?_⟩
    · intro i
      by_cases hi : bucketIndex hashFn t k = i
      · subst hi
        rw [getD_set_self _ _ _ _ (valuesLen ▸ hidx), List.length_set]
        exact lockstep _
      · rw [getD_set_ne _ _ _ _ _ hi]
        exact lockstep i
    · intro i key hk
      exact placed i key hk
  | none =>
    rw [Set_not_found hashFn t k v h]
    have hnotmem : k ∉ t.keyBuckets.getD (bucketIndex hashFn t k) [] :=
      (findFirstNode_eq_none_iff k _).mp h
    refine ⟨capPos, by simp [keysLen], by simp [valuesLen], ?_, ?_, ?_⟩
    · intro i
      by_cases hi : bucketIndex hashFn t k = i
      · subst hi
        rw [getD_set_self _ _ _ _ (keysLen ▸ hidx),
          getD_set_self _ _ _ _ (valuesLen ▸ hidx)]
        have := lockstep (bucketIndex hashFn t k)
        simp only [List.length_append, List.length_cons, List.length_nil]
        omega
      · rw [getD_set_ne _ _ _ _ _ hi, getD_set_ne _ _ _ _ _ hi]
        exact lockstep i
    · intro i
      by_cases hi : bucketIndex hashFn t k = i
      · subst hi
        rw [getD_set_self _ _ _ _ (keysLen ▸ hidx)]
        rw [List.nodup_append]
        exact ⟨nodupKeys _, List.nodup_singleton k, by
          intro a ha hb
          simp only [List.mem_singleton] at hb
          subst hb
          exact hnotmem ha⟩
      · rw [getD_set_ne _ _ _ _ _ hi]
        exact nodupKeys i
    · intro i key hk
      by_cases hi : bucketIndex hashFn t k = i
      · subst hi
        rw [getD_set_self _ _ _ _ (keysLen ▸ hidx)] at hk
        rcases List.mem_append.mp hk with hk | hk
        · exact placed _ key hk
        · simp only [List.mem_singleton] at hk
          subst hk
          rfl
      · rw [getD_set_ne _ _ _ _ _ hi] at hk
        exact placed i key hk

/-! ### The refinement invariant is preserved by `Set` -/

lemma Tracks_Set {K V : Type} [DecidableEq K] (hashFn : K → Nat)
    (t : HashTable K V) (ops : List (K × V))
    (hwf : WF hashFn t) (htr : Tracks hashFn t ops) (k : K) (v : V) :
    Tracks hashFn (Set hashFn t k v) (ops ++ [(k, v)]) := by
  have hi0k : bucketIndex hashFn t k < t.keyBuckets.length :=
    hwf.keysLen ▸ Nat.mod_lt _ hwf.capPos
  have hi0v : bucketIndex hashFn t k < t.valueBuckets.length :=
    hwf.valuesLen ▸ Nat.mod_lt _ hwf.capPos
  have hother : ∀ i (key : K), bucketIndex hashFn t k ≠ i →
      key ∈ t.keyBuckets.getD i [] → key ≠ k := by
    intro i key hi hmem hc
    subst hc
    exact hi (hwf.placed i key hmem)
  have hlast_ne : ∀ key : K, key ≠ k →
      lastVal (ops ++ [(k, v)]) key = lastVal ops key := by
    intro key hne
    rw [lastVal_append_singleton]
    exact if_neg (fun hc => hne hc.symm)
  have hlast_eq : lastVal (ops ++ [(k, v)]) k = some v := by
    rw [lastVal_append_singleton]
    exact if_pos rfl
  cases h : FindFirstNode k (t.keyBuckets.getD (bucketIndex hashFn t k) []) with
  | some j =>
    obtain ⟨hjlt, hjget⟩ := findFirstNode_spec h
    have hjgetE : (t.keyBuckets.getD (bucketIndex hashFn t k) [])[j] = k := by
      simpa [List.get_eq_getElem] using hjget
    have hkeq : (Set hashFn t k v).keyBuckets = t.keyBuckets := by
      rw [Set_found hashFn t k v j h]
    have hveq : (Set hashFn t k v).valueBuckets
        = t.valueBuckets.set (bucketIndex hashFn t k)
          ((t.valueBuckets.getD (bucketIndex hashFn t k) []).set j v) := by
      rw [Set_found hashFn t k v j h]
    refine ⟨?_, ?_⟩
    · intro i j2 key value hkey hvalue
      rw [hkeq] at hkey
      rw [hveq] at hvalue
      by_cases hi : bucketIndex hashFn t k = i
      · subst hi
        rw [getD_set_self _ _ _ _ hi0v] at hvalue
        by_cases hjj : j = j2
        · subst hjj
          have hkeyk : key = k := by
            rw [List.getElem?_eq_getElem hjlt, hjgetE] at hkey
            exact (Option.some_inj.mp hkey).symm
          subst hkeyk
          have hjv : j < (t.valueBuckets.getD (bucketIndex hashFn t key) []).length :=
            hwf.lockstep _ ▸ hjlt
          rw [List.getElem?_set_self hjv] at hvalue
          rw [hlast_eq]
          exact hvalue.symm ▸ rfl
        · rw [List.getElem?_set_ne hjj] at hvalue
          have hkne : key ≠ k := by
            intro hc
            subst hc
            obtain ⟨hj2lt, hj2get⟩ := List.getElem?_eq_some.mp hkey
            exact hjj (((hwf.nodupKeys _).getElem_inj_iff).mp (by rw [hj2get, hjgetE]))
          rw [hlast_ne key hkne]
          exact htr.assoc _ j2 key value hkey hvalue
      · rw [getD_set_ne _ _ _ _ _ hi] at hvalue
        have hkne : key ≠ k := hother i key hi (List.getElem?_mem hkey)
        rw [hlast_ne key hkne]
        exact htr.assoc i j2 key value hkey hvalue
    · intro key2
      rw [bucketIndex_Set, hkeq]
      by_cases hk2 : key2 = k
      · subst hk2
        have hmem := List.getElem_mem hjlt
        rw [hjgetE] at hmem
        exact iff_of_true hmem (by rw [hlast_eq]; rfl)
      · rw [hlast_ne key2 hk2]
        exact htr.memIff key2
  | none =>
    have hnotmem : k ∉ t.keyBuckets.getD (bucketIndex hashFn t k) [] :=
      (findFirstNode_eq_none_iff k _).mp h
    have hkeq : (Set hashFn t k v).keyBuckets
        = t.keyBuckets.set (bucketIndex hashFn t k)
          (t.keyBuckets.getD (bucketIndex hashFn t k) [] ++ [k]) := by
      rw [Set_not_found hashFn t k v h]
    have hveq : (Set hashFn t k v).valueBuckets
        = t.valueBuckets.set (bucketIndex hashFn t k)
          (t.valueBuckets.getD (bucketIndex hashFn t k) [] ++ [v]) := by
      rw [Set_not_found hashFn t k v h]
    refine ⟨?_, ?_⟩
    · intro i j2 key value hkey hvalue
      rw [hkeq] at hkey
      rw [hveq] at hvalue
      by_cases hi : bucketIndex hashFn t k = i
      · subst hi
        rw [getD_set_self _ _ _ _ hi0k] at hkey
        rw [getD_set_self _ _ _ _ hi0v] at hvalue
        by_cases hjlt2 : j2 < (t.keyBuckets.getD (bucketIndex hashFn t k) []).length
        · rw [List.getElem?_append_left hjlt2] at hkey
          have hjv2 : j2 < (t.valueBuckets.getD (bucketIndex hashFn t k) []).length :=
            hwf.lockstep _ ▸ hjlt2
          rw [List.getElem?_append_left hjv2] at hvalue
          have hkne : key ≠ k := by
            intro hc
            subst hc
            exact hnotmem (List.getElem?_mem hkey)
          rw [hlast_ne key hkne]
          exact htr.assoc _ j2 key value hkey hvalue
        · have hlen : j2 < (t.keyBuckets.getD (bucketIndex hashFn t k) []).length + 1 := by
            obtain ⟨hl, _⟩ := List.getElem?_eq_some.mp hkey
            simpa using hl
          have hj2eq : j2 = (t.keyBuckets.getD (bucketIndex hashFn t k) []).length := by
            omega
          subst hj2eq
          rw [List.getElem?_concat_length] at hkey
          rw [hwf.lockstep _, List.getElem?_concat_length] at hvalue
          have hkeyk : key = k := (Option.some_inj.mp hkey).symm
          have hvv : value = v := (Option.some_inj.mp hvalue).symm
          subst hkeyk
          subst hvv
          exact hlast_eq
      · rw [getD_set_ne _ _ _ _ _ hi] at hkey
        rw [getD_set_ne _ _ _ _ _ hi] at hvalue
        have hkne : key ≠ k := hother i key hi (List.getElem?_mem hkey)
        rw [hlast_ne key hkne]
        exact htr.assoc i j2 key value hkey hvalue
    · intro key2
      rw [bucketIndex_Set, hkeq]
      by_cases hk2 : key2 = k
      · subst hk2
        rw [getD_set_self _ _ _ _ hi0k]
        simp [hlast_eq, List.mem_append]
      · rw [hlast_ne key2 hk2]
        by_cases hb : bucketIndex hashFn t k = bucketIndex hashFn t key2
        · rw [← hb, getD_set_self _ _ _ _ hi0k]
          have hiff := htr.memIff key2
          rw [← hb] at hiff
          simp only [List.mem_append, List.mem_singleton]
          constructor
          · intro hc
            rcases hc with hc | hc
            · exact hiff.mp hc
            · exact absurd hc hk2
          · intro hc
            exact Or.inl (hiff.mpr hc)
        · rw [getD_set_ne _ _ _ _ _ hb]
          exact htr.memIff key2

lemma WF_applyOps {K V : Type} [DecidableEq K] (hashFn : K → Nat)
    (t : HashTable K V) (ops : List (K × V)) (hwf : WF hashFn t) :
    WF hashFn (applyOps hashFn t ops) := by
  induction ops generalizing t with
  | nil => exact hwf
  | cons p rest ih => exact ih (Set hashFn t p.1 p.2) (WF_Set hashFn t hwf p.1 p.2)

lemma Tracks_applyOps {K V : Type} [DecidableEq K] (hashFn : K → Nat)
    (t : HashTable K V) (ops0 ops : List (K × V))
    (hwf : WF hashFn t) (htr : Tracks hashFn t ops0) :
    Tracks hashFn (applyOps hashFn t ops) (ops0 ++ ops) := by
  induction ops generalizing t ops0 with
  | nil => simpa using htr
  | cons p rest ih =>
    obtain ⟨k, v⟩ := p
    have hnext := ih (Set hashFn t k v) (ops0 ++ [(k, v)])
      (WF_Set hashFn t hwf k v) (Tracks_Set hashFn t ops0 hwf htr k v)
    simpa [List.append_assoc] using hnext

/-! ### `Get` returns the most recently set value -/

lemma Get_of_lastVal_some {K V : Type} [DecidableEq K] (hashFn : K → Nat)
    (t : HashTable K V) (ops : List (K × V))
    (hwf : WF hashFn t) (htr : Tracks hashFn t ops) (k : K) (v : V)
    (hv : lastVal ops k = some v) :
    Get hashFn t k = Except.ok v := by
  have hidx : bucketIndex hashFn t k < t.capacity := Nat.mod_lt _ hwf.capPos
  have hcond : bucketIndex hashFn t k < t.keyBuckets.length ∧
      bucketIndex hashFn t k < t.valueBuckets.length :=
    ⟨hwf.keysLen ▸ hidx, hwf.valuesLen ▸ hidx⟩
  have hmem : k ∈ t.keyBuckets.getD (bucketIndex hashFn t k) [] :=
    (htr.memIff k).mpr (by rw [hv]; rfl)
  obtain ⟨j, hj⟩ := findFirstNode_of_mem hmem
  obtain ⟨hjlt, hjget⟩ := findFirstNode_spec hj
  have hjgetE : (t.keyBuckets.getD (bucketIndex hashFn t k) [])[j] = k := by
    simpa [List.get_eq_getElem] using hjget
  have hjv : j < (t.valueBuckets.getD (bucketIndex hashFn t k) []).length :=
    hwf.lockstep _ ▸ hjlt
  have hassoc := htr.assoc (bucketIndex hashFn t k) j k
    ((t.valueBuckets.getD (bucketIndex hashFn t k) [])[j])
    (by rw [List.getElem?_eq_getElem hjlt, hjgetE])
    (by rw [List.getElem?_eq_getElem hjv])
  have hvv : (t.valueBuckets.getD (bucketIndex hashFn t k) [])[j] = v := by
    rw [hassoc] at hv
    exact Option.some_inj.mp hv
  simp only [Get]
  rw [if_pos hcond, hj]
  simp only [hjv, dif_pos]
  rw [← hvv]
  rfl

lemma Get_of_lastVal_none {K V : Type} [DecidableEq K] (hashFn : K → Nat)
    (t : HashTable K V) (ops : List (K × V))
    (hwf : WF hashFn t) (htr : Tracks hashFn t ops) (k : K)
    (hv : lastVal ops k = none) :
    Get hashFn t k = Except.error HashErr.keyNotFound := by
  have hidx : bucketIndex hashFn t k < t.capacity := Nat.mod_lt _ hwf.capPos
  have hcond : bucketIndex hashFn t k < t.keyBuckets.length ∧
      bucketIndex hashFn t k < t.valueBuckets.length :=
    ⟨hwf.keysLen ▸ hidx, hwf.valuesLen ▸ hidx⟩
  have hnotmem : k ∉ t.keyBuckets.getD (bucketIndex hashFn t k) [] := by
    intro hmem
    have := (htr.memIff k).mp hmem
    rw [hv] at this
    exact Bool.noConfusion this
  have hf : FindFirstNode k (t.keyBuckets.getD (bucketIndex hashFn t k) []) = none :=
    (findFirstNode_eq_none_iff k _).mpr hnotmem
  simp only [Get]
  rw [if_pos hcond, hf]

/-! ### Counting the entries of a key -/

lemma countP_eq_zero_of_not_mem {K : Type} [DecidableEq K] (k : K) (l : List K)
    (h : k ∉ l) : l.countP (fun x => decide (x = k)) = 0 := by
  induction l with
  | nil => rfl
  | cons x xs ih =>
    rw [List.countP_cons]
    have hx : x ≠ k := fun hc => h (hc ▸ List.mem_cons_self x xs)
    have hxs : k ∉ xs := fun hc => h (List.mem_cons_of_mem x hc)
    simp [hx, ih hxs]

lemma countP_eq_one_of_nodup_mem {K : Type} [DecidableEq K] (k : K) (l : List K)
    (hnd : l.Nodup) (h : k ∈ l) : l.countP (fun x => decide (x = k)) = 1 := by
  induction l with
  | nil => simp at h
  | cons x xs ih =>
    rw [List.countP_cons]
    by_cases hx : x = k
    · subst hx
      have hxs : x ∉ xs := (List.nodup_cons.mp hnd).1
      simp [countP_eq_zero_of_not_mem x xs hxs]
    · have hmem : k ∈ xs := by
        rcases List.mem_cons.mp h with hc | hc
        · exact absurd hc.symm hx
        · exact hc
      simp [hx, ih (List.nodup_cons.mp hnd).2 hmem]

lemma sum_map_indicator {α : Type} (l : List α) (g : α → Nat) (i0 : Nat)
    (h : ∀ j (hj : j < l.length), g (l.get ⟨j, hj⟩) = if j = i0 then 1 else 0)
    (hi0 : i0 < l.length) :
    (l.map g).sum = 1 := by
  induction l generalizing i0 with
  | nil => simp at hi0
  | cons x xs ih =>
    cases i0 with
    | zero =>
      have hx : g x = 1 := by simpa using h 0 (by simp)
      have hrest : (xs.map g).sum = 0 := by
        apply List.sum_eq_zero
        intro y hy
        obtain ⟨a, ha, rfl⟩ := List.mem_map.mp hy
        obtain ⟨⟨j, hj⟩, rfl⟩ := List.mem_iff_get.mp ha
        simpa using h (j + 1) (by simpa using hj)
      simp [hx, hrest]
    | succ n =>
      have hx : g x = 0 := by simpa using h 0 (by simp)
      have hrest : (xs.map g).sum = 1 := by
        apply ih
        · intro j hj
          have := h (j + 1) (by simpa using hj)
          simpa using this
        · simpa using hi0
      simp [hx, hrest]

lemma countEntries_eq_one {K V : Type} [DecidableEq K] (hashFn : K → Nat)
    (t : HashTable K V) (hwf : WF hashFn t) (k : K)
    (hmem : k ∈ t.keyBuckets.getD (bucketIndex hashFn t k) []) :
    countEntries t k = 1 := by
  unfold countEntries
  apply sum_map_indicator _ _ (bucketIndex hashFn t k) _
    (hwf.keysLen ▸ Nat.mod_lt _ hwf.capPos)
  intro j hj
  have hget : t.keyBuckets.get ⟨j, hj⟩ = t.keyBuckets.getD j [] := by
    rw [List.getD_eq_getElem _ _ hj, List.get_eq_getElem]
  rw [hget]
  by_cases hji : j = bucketIndex hashFn t k
  · subst hji
    rw [if_pos rfl]
    exact countP_eq_one_of_nodup_mem k _ (hwf.nodupKeys _) hmem
  · rw [if_neg hji]
    apply countP_eq_zero_of_not_mem
    intro hmem2
    exact hji ((hwf.placed j k hmem2).symm)

/-- After `Set`, the key is present in its bucket's key chain. -/
lemma mem_bucket_after_Set {K V : Type} [DecidableEq K] (hashFn : K → Nat)
    (t : HashTable K V) (hwf : WF hashFn t) (k : K) (v : V) :
    k ∈ (Set hashFn t k v).keyBuckets.getD (bucketIndex hashFn t k) [] := by
  have hi0k : bucketIndex hashFn t k < t.keyBuckets.length :=
    hwf.keysLen ▸ Nat.mod_lt _ hwf.capPos
  cases h : FindFirstNode k (t.keyBuckets.getD (bucketIndex hashFn t k) []) with
  | none =>
    rw [Set_not_found hashFn t k v h]
    rw [getD_set_self _ _ _ _ hi0k]
    simp
  | some j =>
    rw [Set_found hashFn t k v j h]
    obtain ⟨hjlt, hjget⟩ := findFirstNode_spec h
    have hmem := List.getElem_mem hjlt
    have hjgetE : (t.keyBuckets.getD (bucketIndex hashFn t k) [])[j] = k := by
      simpa [List.get_eq_getElem] using hjget
    rw [hjgetE] at hmem
    exact hmem

/-- If the key chain holds `k` at position `j` and the value chain holds
`v` there, `Get` returns `v`. -/
lemma Get_found_value {K V : Type} [DecidableEq K] (hashFn : K → Nat)
    (t : HashTable K V) (hwf : WF hashFn t) (k : K) (j : Nat)
    (hj : FindFirstNode k (t.keyBuckets.getD (bucketIndex hashFn t k) []) = some j)
    (v : V)
    (hv : (t.valueBuckets.getD (bucketIndex hashFn t k) [])[j]? = some v) :
    Get hashFn t k = Except.ok v := by
  have hidx : bucketIndex hashFn t k < t.capacity := Nat.mod_lt _ hwf.capPos
  have hcond : bucketIndex hashFn t k < t.keyBuckets.length ∧
      bucketIndex hashFn t k < t.valueBuckets.length :=
    ⟨hwf.keysLen ▸ hidx, hwf.valuesLen ▸ hidx⟩
  obtain ⟨hlt, hgetv⟩ := List.getElem?_eq_some.mp hv
  simp only [Get]
  rw [if_pos hcond, hj]
  simp only [hlt, dif_pos]
  rw [← hgetv]
  rfl

/-! ## The claims -/

/-- C1: starting from a freshly constructed table of any positive bucket
capacity, after an arbitrary interleaved sequence of `Set` calls that has
set the distinct keys `k1` and `k2`, `Get k1` and `Get k2` each return the
value most recently set for that key — whatever the insertion order and
whether or not the two keys' hashes collide into the same bucket (the
hashing function and capacity are arbitrary, so every collision pattern is
covered). -/
theorem collision_correctness {K V : Type} [DecidableEq K] (hashFn : K → Nat)
    (c m : Nat) (thr : ℚ) (hc : 0 < c) (ops : List (K × V)) (k1 k2 : K)
    (v1 v2 : V) (hne : k1 ≠ k2)
    (h1 : lastVal ops k1 = some v1) (h2 : lastVal ops k2 = some v2) :
    Get hashFn (applyOps hashFn (emptyTable K V c m thr) ops) k1 = Except.ok v1 ∧
    Get hashFn (applyOps hashFn (emptyTable K V c m thr) ops) k2 = Except.ok v2 := by
  have hwf0 := WF_emptyTable K V hashFn c m thr hc
  have hwf := WF_applyOps hashFn (emptyTable K V c m thr) ops hwf0
  have htr := Tracks_applyOps hashFn (emptyTable K V c m thr) [] ops hwf0
    (Tracks_emptyTable K V hashFn c m thr)
  rw [List.nil_append] at htr
  exact ⟨Get_of_lastVal_some hashFn _ ops hwf htr k1 v1 h1,
    Get_of_lastVal_some hashFn _ ops hwf htr k2 v2 h2⟩

/-- C1 witness: two distinct keys forced into the same single bucket,
set in interleaved order; each `Get` returns its key's last-set value. -/
theorem collision_correctness_witness :
    Get id (applyOps id (emptyTable Nat Nat 1 1 (3 / 4)) [(0, 10), (1, 20), (0, 30)]) 0
      = Except.ok 30 ∧
    Get id (applyOps id (emptyTable Nat Nat 1 1 (3 / 4)) [(0, 10), (1, 20), (0, 30)]) 1
      = Except.ok 20 :=
  collision_correctness id 1 1 (3 / 4) (by decide) [(0, 10), (1, 20), (0, 30)]
    0 1 30 20 (by decide) (by decide) (by decide)

/-- C2: on any structurally well-formed table, `Set(k, v1)` then
`Set(k, v2)` leaves exactly one chain entry for `k` across the whole
table, a subsequent `Get k` returns `v2`, and the second `Set` leaves
`hashedPairCount` unchanged. -/
theorem set_overwrites {K V : Type} [DecidableEq K] (hashFn : K → Nat)
    (t : HashTable K V) (hwf : WF hashFn t) (k : K) (v1 v2 : V) :
    countEntries (Set hashFn (Set hashFn t k v1) k v2) k = 1 ∧
    Get hashFn (Set hashFn (Set hashFn t k v1) k v2) k = Except.ok v2 ∧
    (Set hashFn (Set hashFn t k v1) k v2).hashedPairCount
      = (Set hashFn t k v1).hashedPairCount := by
  have hwf1 := WF_Set hashFn t hwf k v1
  have hb1 : bucketIndex hashFn (Set hashFn t k v1) k = bucketIndex hashFn t k :=
    bucketIndex_Set hashFn t k v1 k
  have hmem1 : k ∈ (Set hashFn t k v1).keyBuckets.getD
      (bucketIndex hashFn (Set hashFn t k v1) k) [] := by
    rw [hb1]
    exact mem_bucket_after_Set hashFn t hwf k v1
  obtain ⟨j, hj⟩ := findFirstNode_of_mem hmem1
  obtain ⟨hjlt, _⟩ := findFirstNode_spec hj
  have ht2 := Set_found hashFn (Set hashFn t k v1) k v2 j hj
  have hwf2 := WF_Set hashFn (Set hashFn t k v1) hwf1 k v2
  have hb2 : bucketIndex hashFn (Set hashFn (Set hashFn t k v1) k v2) k
      = bucketIndex hashFn (Set hashFn t k v1) k :=
    bucketIndex_Set hashFn (Set hashFn t k v1) k v2 k
  have hkeq2 : (Set hashFn (Set hashFn t k v1) k v2).keyBuckets
      = (Set hashFn t k v1).keyBuckets := by
    rw [ht2]
  refine ⟨?_, ?_, ?_⟩
  · exact countEntries_eq_one hashFn _ hwf2 k (by
      rw [hb2]
      exact mem_bucket_after_Set hashFn (Set hashFn t k v1) hwf1 k v2)
  · have hj2 : FindFirstNode k ((Set hashFn (Set hashFn t k v1) k v2).keyBuckets.getD
        (bucketIndex hashFn (Set hashFn (Set hashFn t k v1) k v2) k) []) = some j := by
      rw [hkeq2, hb2]
      exact hj
    have hi1v : bucketIndex hashFn (Set hashFn t k v1) k
        < (Set hashFn t k v1).valueBuckets.length :=
      hwf1.valuesLen ▸ Nat.mod_lt _ hwf1.capPos
    have hjv : j < ((Set hashFn t k v1).valueBuckets.getD
        (bucketIndex hashFn (Set hashFn t k v1) k) []).length :=
      hwf1.lockstep _ ▸ hjlt
    have hv2 : ((Set hashFn (Set hashFn t k v1) k v2).valueBuckets.getD
        (bucketIndex hashFn (Set hashFn (Set hashFn t k v1) k v2) k) [])[j]?
        = some v2 := by
      rw [hb2, ht2]
      rw [getD_set_self _ _ _ _ hi1v]
      exact List.getElem?_set_self hjv
    exact Get_found_value hashFn _ hwf2 k j hj2 v2 hv2
  · rw [ht2]

/-- C2 witness: a fresh single-bucket table; setting key 5 to 1 then to 2
leaves one entry, `Get` returns 2, and the pair count stays at 1. -/
theorem set_overwrites_witness :
    countEntries (Set id (Set id (emptyTable Nat Nat 1 1 (3 / 4)) 5 1) 5 2) 5 = 1 ∧
    Get id (Set id (Set id (emptyTable Nat Nat 1 1 (3 / 4)) 5 1) 5 2) 5 = Except.ok 2 ∧
    (Set id (Set id (emptyTable Nat Nat 1 1 (3 / 4)) 5 1) 5 2).hashedPairCount
      = (Set id (emptyTable Nat Nat 1 1 (3 / 4)) 5 1).hashedPairCount :=
  set_overwrites id (emptyTable Nat Nat 1 1 (3 / 4))
    (WF_emptyTable Nat Nat id 1 1 (3 / 4) (by decide)) 5 1 2

/-- C3: after any sequence of `Set` calls on a freshly constructed table,
every in-range bucket's key chain and value chain have equal length —
unconditionally — and the chains run in lockstep positionally: whenever
position `j` of the two chains of a bucket holds a key and a value, that
value is the value most recently set for that key. -/
theorem lockstep_invariant {K V : Type} [DecidableEq K] (hashFn : K → Nat)
    (c m : Nat) (thr : ℚ) (hc : 0 < c) (ops : List (K × V)) (i : Nat)
    (hi : i < c) :
    ((applyOps hashFn (emptyTable K V c m thr) ops).keyBuckets.getD i []).length
      = ((applyOps hashFn (emptyTable K V c m thr) ops).valueBuckets.getD i []).length ∧
    ∀ (j : Nat) (key : K) (value : V),
      ((applyOps hashFn (emptyTable K V c m thr) ops).keyBuckets.getD i [])[j]?
        = some key →
      ((applyOps hashFn (emptyTable K V c m thr) ops).valueBuckets.getD i [])[j]?
        = some value →
      lastVal ops key = some value := by
  have hwf0 := WF_emptyTable K V hashFn c m thr hc
  have hwf := WF_applyOps hashFn (emptyTable K V c m thr) ops hwf0
  have htr := Tracks_applyOps hashFn (emptyTable K V c m thr) [] ops hwf0
    (Tracks_emptyTable K V hashFn c m thr)
  rw [List.nil_append] at htr
  exact ⟨hwf.lockstep i, fun j key value hkey hvalue =>
    htr.assoc i j key value hkey hvalue⟩

/-- C3 witness: single-bucket table, two keys; bucket 0's chains have
equal length, and every position of the two chains is matched — e.g.
position 1 holds key 1 beside value 20, key 1's last-set value. -/
theorem lockstep_invariant_witness :
    ((applyOps id (emptyTable Nat Nat 1 1 (3 / 4)) [(0, 10), (1, 20)]).keyBuckets.getD 0 []).length
      = ((applyOps id (emptyTable Nat Nat 1 1 (3 / 4)) [(0, 10), (1, 20)]).valueBuckets.getD 0 []).length ∧
    ∀ (j : Nat) (key : Nat) (value : Nat),
      ((applyOps id (emptyTable Nat Nat 1 1 (3 / 4)) [(0, 10), (1, 20)]).keyBuckets.getD 0 [])[j]?
        = some key →
      ((applyOps id (emptyTable Nat Nat 1 1 (3 / 4)) [(0, 10), (1, 20)]).valueBuckets.getD 0 [])[j]?
        = some value →
      lastVal [(0, 10), (1, 20)] key = some value :=
  lockstep_invariant id 1 1 (3 / 4) (by decide) [(0, 10), (1, 20)] 0 (by decide)

/-- C7: on a structurally well-formed table, a key whose bucket chain has
no matching node makes `Get` fail with the key-not-found error (not a
crash, not a value), `Has` converts that failure into `false`, and for an
arbitrary key `Has` is `true` exactly when `Get` succeeds. -/
theorem get_missing_key {K V : Type} [DecidableEq K] (hashFn : K → Nat)
    (t : HashTable K V) (hwf : WF hashFn t) (k k2 : K)
    (hmiss : FindFirstNode k (t.keyBuckets.getD (bucketIndex hashFn t k) []) = none) :
    Get hashFn t k = Except.error HashErr.keyNotFound ∧
    Has hashFn t k = false ∧
    (Has hashFn t k2 = true ↔ ∃ v, Get hashFn t k2 = Except.ok v) := by
  have hidx : bucketIndex hashFn t k < t.capacity := Nat.mod_lt _ hwf.capPos
  have hcond : bucketIndex hashFn t k < t.keyBuckets.length ∧
      bucketIndex hashFn t k < t.valueBuckets.length :=
    ⟨hwf.keysLen ▸ hidx, hwf.valuesLen ▸ hidx⟩
  have hget : Get hashFn t k = Except.error HashErr.keyNotFound := by
    simp only [Get]
    rw [if_pos hcond, hmiss]
  refine ⟨hget, ?_, ?_⟩
  · simp only [Has]
    rw [hget]
  · cases hg : Get hashFn t k2 with
    | ok v =>
      refine ⟨fun _ => ⟨v, rfl⟩, fun _ => ?_⟩
      simp only [Has]
      rw [hg]
    | error e =>
      refine ⟨fun hc => ?_, fun hc => ?_⟩
      · simp only [Has] at hc
        rw [hg] at hc
        exact Bool.noConfusion hc
      · obtain ⟨v, hv⟩ := hc
        exact Except.noConfusion hv

/-- C7 witness: `Get` of key 42 on the default-constructed (empty) table
fails with key-not-found, `Has` is false, and for key 7 `Has` agrees with
`Get` succeeding. -/
theorem get_missing_key_witness :
    Get id (mkDefault Nat Nat) 42 = Except.error HashErr.keyNotFound ∧
    Has id (mkDefault Nat Nat) 42 = false ∧
    (Has id (mkDefault Nat Nat) 7 = true ↔ ∃ v, Get id (mkDefault Nat Nat) 7 = Except.ok v) :=
  get_missing_key id (mkDefault Nat Nat)
    (WF_emptyTable Nat Nat id 200 200 (3 / 4) (by decide)) 42 7 (by decide)

/-- C4: `Set` never invokes `AdapteCapacity` (the method has no caller),
so the table does not grow or rehash.  Concretely: constructing a table of
actual capacity 1 (requested capacity 0, modifier 1, threshold 0.75) and
performing two `Set` calls with distinct keys reaches a state with
`hashedPairCount = 2` and the stale bucket count 1, whose occupancy 2
exceeds the 0.75 threshold — and even calling the dead `AdapteCapacity`
by hand would neither change the capacity nor rehash any pair. -/
theorem set_never_resizes_concrete :
    mkWithCapacity Nat Nat 0 (3 / 4) 1 = Except.ok (emptyTable Nat Nat 1 1 (3 / 4)) ∧
    (applyOps id (emptyTable Nat Nat 1 1 (3 / 4)) [(0, 10), (1, 20)]).hashedPairCount = 2 ∧
    (applyOps id (emptyTable Nat Nat 1 1 (3 / 4)) [(0, 10), (1, 20)]).capacity = 1 ∧
    ¬(((applyOps id (emptyTable Nat Nat 1 1 (3 / 4)) [(0, 10), (1, 20)]).hashedPairCount : ℚ)
        / ((applyOps id (emptyTable Nat Nat 1 1 (3 / 4)) [(0, 10), (1, 20)]).capacity : ℚ)
      < (applyOps id (emptyTable Nat Nat 1 1 (3 / 4)) [(0, 10), (1, 20)]).threshold) ∧
    (AdapteCapacity (applyOps id (emptyTable Nat Nat 1 1 (3 / 4)) [(0, 10), (1, 20)])).capacity = 1 ∧
    (AdapteCapacity (applyOps id (emptyTable Nat Nat 1 1 (3 / 4)) [(0, 10), (1, 20)])).keyBuckets
      = (applyOps id (emptyTable Nat Nat 1 1 (3 / 4)) [(0, 10), (1, 20)]).keyBuckets := by
  have hthr : (0 : ℚ) < 3 / 4 ∧ (3 / 4 : ℚ) ≤ 1 := by norm_num
  have h1 : mkWithCapacity Nat Nat 0 (3 / 4) 1 = Except.ok (emptyTable Nat Nat 1 1 (3 / 4)) := by
    unfold mkWithCapacity
    rw [if_pos hthr]
    rfl
  have h2 : (applyOps id (emptyTable Nat Nat 1 1 (3 / 4)) [(0, 10), (1, 20)]).hashedPairCount = 2 := by
    decide
  have h3 : (applyOps id (emptyTable Nat Nat 1 1 (3 / 4)) [(0, 10), (1, 20)]).capacity = 1 := by
    decide
  have hth : (applyOps id (emptyTable Nat Nat 1 1 (3 / 4)) [(0, 10), (1, 20)]).threshold = 3 / 4 := by
    rfl
  have h4 : ¬(((applyOps id (emptyTable Nat Nat 1 1 (3 / 4)) [(0, 10), (1, 20)]).hashedPairCount : ℚ)
      / ((applyOps id (emptyTable Nat Nat 1 1 (3 / 4)) [(0, 10), (1, 20)]).capacity : ℚ)
      < (applyOps id (emptyTable Nat Nat 1 1 (3 / 4)) [(0, 10), (1, 20)]).threshold) := by
    rw [h2, h3, hth]
    norm_num
  have hb : (applyOps id (emptyTable Nat Nat 1 1 (3 / 4)) [(0, 10), (1, 20)]).bucketsCount = 0 := by
    decide
  have hmod : (applyOps id (emptyTable Nat Nat 1 1 (3 / 4)) [(0, 10), (1, 20)]).capacityModifier = 1 := by
    decide
  have h5 : AdapteCapacity (applyOps id (emptyTable Nat Nat 1 1 (3 / 4)) [(0, 10), (1, 20)])
      = { applyOps id (emptyTable Nat Nat 1 1 (3 / 4)) [(0, 10), (1, 20)] with
          bucketsCount := (applyOps id (emptyTable Nat Nat 1 1 (3 / 4)) [(0, 10), (1, 20)]).bucketsCount
            + (applyOps id (emptyTable Nat Nat 1 1 (3 / 4)) [(0, 10), (1, 20)]).capacityModifier } := by
    unfold AdapteCapacity
    rw [if_neg h4, if_neg (by rw [hb, hmod, h3]; decide)]
  refine ⟨h1, h2, h3, h4, ?_, ?_⟩
  · rw [h5]
    exact h3
  · rw [h5]

/-- C5 counterexample: at `rawValue = 255`, `seed = 0` the code's hash
differs from the claim's reference computation, because the code seeds the
accumulator with the number of decimal digits of `rawValue`
(`std::to_string(255).length() = 3`) while the claim's reference uses the
count of 4-bit digits (2). -/
theorem murmur_claim_reference_counterexample :
    MurmurHashingAlgorithm 255 0 ≠ murmurReferenceClaim 255 0 := by
  decide

/-- C5 amended: for every raw value and seed, the code's hash equals the
reference computation of the claim with its initialisation amended to
`seed XOR (number of decimal digits of rawValue)`: split the binary
representation into 4-bit groups most-significant first, fold each group
in with the prime-multiply / mask / shift-XOR mixing steps, and finish
with the avalanche. -/
theorem murmur_matches_amended_reference (rawValue seed : Nat) :
    MurmurHashingAlgorithm rawValue seed = murmurReferenceAmended rawValue seed := by
  unfold MurmurHashingAlgorithm murmurReferenceAmended
  rw [toByteArray_eq_specDigits]

/-- C6: the two-argument `Resize` never writes the caller-supplied default
value: resizing the one-element array `[1]` to length 3 with default 7
leaves slots 1 and 2 default-initialised (`none`) instead of setting them
to 7, contradicting the function's own documentation. -/
theorem resize_default_value_never_written :
    ResizeWithDefault ([some 1] : List (Option Nat)) 3 7 = [some 1, none, none] ∧
    ResizeWithDefault ([some 1] : List (Option Nat)) 3 7 ≠ [some 1, some 7, some 7] := by
  decide

/-- C8 counterexample: the default-constructed table has 200 buckets, not
500 — `HashTable()` builds both `List`s with `DynamicArray()`, whose
capacity is `DynamicArray::INITIAL_CAPACITY = 200`; the constant
`HashTable::INITIAL_CAPACITY = 500` is only the default `capacityModifier`
of the explicit-capacity constructor. -/
theorem default_capacity_counterexample :
    (mkDefault Nat Nat).capacity ≠ 500 := by
  decide

/-- C8 amended: a table constructed with the zero-argument constructor has
an initial bucket count of 200, a growth increment of 200, and a
load-factor threshold of 0.75. -/
theorem default_construction_values :
    (mkDefault Nat Nat).capacity = 200 ∧
    (mkDefault Nat Nat).capacityModifier = 200 ∧
    (mkDefault Nat Nat).threshold = 3 / 4 :=
  ⟨rfl, rfl, rfl⟩

/-- C9: reversing the 3-element chain built by adding 1, 2, 3 gives the
reversed forward order `[3, 2, 1]` along `next`, but the backward
traversal along `previous` from the new tail yields `[1, 2, 1]` — not the
required `[1, 2, 3]` — because the loop rewrites only `next` pointers and
the fix-up touches just the new head's and new tail's `previous`: the
interior node keeps its stale back pointer (node 1's `previous` is still
node 0). -/
theorem reverse_breaks_prev_links :
    (Reverse (AddValue (AddValue (AddValue (emptyLinkedList Nat) 1) 2) 3)).count = 3 ∧
    (Reverse (AddValue (AddValue (AddValue (emptyLinkedList Nat) 1) 2) 3)).head = some 2 ∧
    (Reverse (AddValue (AddValue (AddValue (emptyLinkedList Nat) 1) 2) 3)).tail = some 0 ∧
    nextTraversal (Reverse (AddValue (AddValue (AddValue (emptyLinkedList Nat) 1) 2) 3)).count
        (Reverse (AddValue (AddValue (AddValue (emptyLinkedList Nat) 1) 2) 3)).head
        (Reverse (AddValue (AddValue (AddValue (emptyLinkedList Nat) 1) 2) 3)).nodes
      = [3, 2, 1] ∧
    prevTraversal (Reverse (AddValue (AddValue (AddValue (emptyLinkedList Nat) 1) 2) 3)).count
        (Reverse (AddValue (AddValue (AddValue (emptyLinkedList Nat) 1) 2) 3)).tail
        (Reverse (AddValue (AddValue (AddValue (emptyLinkedList Nat) 1) 2) 3)).nodes
      = [1, 2, 1] ∧
    prevTraversal (Reverse (AddValue (AddValue (AddValue (emptyLinkedList Nat) 1) 2) 3)).count
        (Reverse (AddValue (AddValue (AddValue (emptyLinkedList Nat) 1) 2) 3)).tail
        (Reverse (AddValue (AddValue (AddValue (emptyLinkedList Nat) 1) 2) 3)).nodes
      ≠ List.reverse [3, 2, 1] ∧
    ((Reverse (AddValue (AddValue (AddValue (emptyLinkedList Nat) 1) 2) 3)).nodes.getD 1
        { Data := 0, next := none, previous := none }).previous = some 0 := by
  decide

/-- C10: a table built with requested capacity `c` and positive modifier
`m` gets actual capacity `(c / m + 1) * m`, which strictly exceeds `c`;
when `m` divides `c` exactly a full extra increment is allocated; and the
bucket index used by `Set`/`Get` reduces the hash modulo this actual
capacity, not modulo the requested `c`. -/
theorem actual_capacity_modulo {K V : Type} [DecidableEq K] (hashFn : K → Nat)
    (c m : Nat) (hm : 0 < m) (thr : ℚ) (t : HashTable K V)
    (h : mkWithCapacity K V c thr m = Except.ok t) (k : K) :
    t.capacity = (c / m + 1) * m ∧
    c < t.capacity ∧
    (m ∣ c → t.capacity = c + m) ∧
    bucketIndex hashFn t k = hashFn k % ((c / m + 1) * m) := by
  unfold mkWithCapacity at h
  split_ifs at h with hthr
  · injection h with h
    subst h
    refine ⟨rfl, ?_, ?_, rfl⟩
    · have h1 := Nat.div_add_mod c m
      have h2 := Nat.mod_lt c hm
      show c < (c / m + 1) * m
      have h3 : (c / m + 1) * m = c / m * m + m := by ring
      have h4 : c / m * m = m * (c / m) := Nat.mul_comm _ _
      omega
    · intro hdvd
      obtain ⟨q, rfl⟩ := hdvd
      show (m * q / m + 1) * m = m * q + m
      rw [Nat.mul_div_cancel_left q hm]
      ring

/-- C10 witness: requested capacity 4 with increment 2 — an exact
multiple — allocates 6 buckets, and key 5 is reduced modulo 6. -/
theorem actual_capacity_modulo_witness :
    (emptyTable Nat Nat 6 2 (3 / 4)).capacity = (4 / 2 + 1) * 2 ∧
    4 < (emptyTable Nat Nat 6 2 (3 / 4)).capacity ∧
    (2 ∣ 4 → (emptyTable Nat Nat 6 2 (3 / 4)).capacity = 4 + 2) ∧
    bucketIndex id (emptyTable Nat Nat 6 2 (3 / 4)) 5 = 5 % ((4 / 2 + 1) * 2) :=
  actual_capacity_modulo id 4 2 (by decide) (3 / 4)
    (emptyTable Nat Nat 6 2 (3 / 4))
    (by unfold mkWithCapacity
        rw [if_pos (by norm_num : (0 : ℚ) < 3 / 4 ∧ (3 / 4 : ℚ) ≤ 1)]
        rfl) 5

end DS
